import Mathlib

/-
Verification of the esy build-orchestrator core against its specification.

The JavaScript sources are shallowly embedded:

* `Build`, `BuildConfig` mirror the types in `build-repr.js`.
* The path generators mirror `createConfig` in `build-config.js`; the
  behaviour of `path.join` on plain relative segments is modelled by
  `pathJoin`, which joins segments with a slash.
* `bfsAux` and `dfsVisit` mirror `traverse` and `traverseDeepFirst` in
  `build-repr.js`; `collectTransitiveDependencies` mirrors the function of
  the same name.
* `renderFindlibConf` mirrors `renderFindlibConf` in `simple-builder.js`.
* `normalizePackageName` mirrors the function of the same name in
  `util.js`, pass by pass.
* `renderEnv` and `flattenArray` mirror `makefile-builder.js` and
  `util.js`.
* `performBuildOps` mirrors the effect sequence of `performBuild` in
  `simple-builder.js`: the list of operations awaited on the promise
  chain, paired with the list of operations issued on the detached
  rewrite chain (`rewriteInProgress`), which the code never awaits.
* `getOldHash` mirrors `getOldHash.js` over an explicit file-system map.
* `findOcc`, `bufferWrite` and `rewriteContent` mirror the per-file
  rewrite step of `performBuild` (Buffer.indexOf / Buffer.write /
  fs.writeFile on the same path).
-/

set_option maxHeartbeats 1000000

namespace Esy

/-- A node of the build graph, as in `build-repr.js`. Dependencies are
nested build values, as in the source, where sharing is by `id`. -/
inductive Build where
  | mk (id : String) (name : String) (version : String)
       (command : Option (List String)) (sourcePath : String)
       (mutatesSourcePath : Bool) (shouldBePersisted : Bool)
       (dependencies : List Build)

def Build.id : Build → String
  | .mk i _ _ _ _ _ _ _ => i

def Build.name : Build → String
  | .mk _ n _ _ _ _ _ _ => n

def Build.version : Build → String
  | .mk _ _ v _ _ _ _ _ => v

def Build.command : Build → Option (List String)
  | .mk _ _ _ c _ _ _ _ => c

def Build.sourcePath : Build → String
  | .mk _ _ _ _ s _ _ _ => s

def Build.mutatesSourcePath : Build → Bool
  | .mk _ _ _ _ _ m _ _ => m

def Build.shouldBePersisted : Build → Bool
  | .mk _ _ _ _ _ _ p _ => p

def Build.dependencies : Build → List Build
  | .mk _ _ _ _ _ _ _ ds => ds

mutual

def Build.beq : Build → Build → Bool
  | .mk i1 n1 v1 c1 s1 m1 p1 d1, .mk i2 n2 v2 c2 s2 m2 p2 d2 =>
    i1 == i2 && n1 == n2 && v1 == v2 && c1 == c2 && s1 == s2 && m1 == m2 &&
      p1 == p2 && Build.beqList d1 d2

def Build.beqList : List Build → List Build → Bool
  | [], [] => true
  | a :: as, b :: bs => Build.beq a b && Build.beqList as bs
  | _, _ => false

end

theorem Build.beq_iff : ∀ a b, (Build.beq a b = true) ↔ a = b := by
  refine Build.beq.induct (fun a b => (Build.beq a b = true) ↔ a = b)
    (fun as bs => (Build.beqList as bs = true) ↔ as = bs) ?_ ?_ ?_ ?_
  · intro i1 n1 v1 c1 s1 m1 p1 d1 i2 n2 v2 c2 s2 m2 p2 d2 ih
    simp only [Build.beq, Bool.and_eq_true, beq_iff_eq, Build.mk.injEq, ih]
    tauto
  · simp [Build.beqList]
  · intro a as b bs ih1 ih2
    simp only [Build.beqList, Bool.and_eq_true, List.cons.injEq, ih1, ih2]
  · intro t x h1 h2
    match t, x with
    | [], [] => exact absurd (h1 rfl rfl) not_false
    | [], b :: bs => simp [Build.beqList]
    | a :: as, [] => simp [Build.beqList]
    | a :: as, b :: bs => exact absurd (h2 a as b bs rfl rfl) not_false

instance : DecidableEq Build := fun a b => decidable_of_iff _ (Build.beq_iff a b)

/-- Join path segments with a slash; model of `path.join` on plain
relative segments, as used by `createConfig`. -/
def pathJoin : List String → String
  | [] => ""
  | [s] => s
  | s :: rest => s ++ "/" ++ pathJoin rest

/-- The two roots a config is created from, as in `createConfig` in
`build-config.js`. -/
structure BuildConfig where
  storePath : String
  sandboxPath : String

/-- `sandboxLocalStorePath` of `createConfig`. -/
def sandboxLocalStorePath (cfg : BuildConfig) : String :=
  pathJoin [cfg.sandboxPath, "_esy", "store"]

/-- `genPath` of `createConfig`. -/
def genPath (cfg : BuildConfig) (b : Build) (tree : String)
    (segments : List String) : String :=
  if b.shouldBePersisted then
    pathJoin (cfg.storePath :: tree :: b.id :: segments)
  else
    pathJoin (sandboxLocalStorePath cfg :: tree :: b.id :: segments)

/-- `getSourcePath` of `createConfig`. -/
def getSourcePath (cfg : BuildConfig) (b : Build)
    (segments : List String) : String :=
  pathJoin (cfg.sandboxPath :: b.sourcePath :: segments)

/-- `getRootPath` of `createConfig`. -/
def getRootPath (cfg : BuildConfig) (b : Build)
    (segments : List String) : String :=
  if b.mutatesSourcePath then genPath cfg b "_build" segments
  else pathJoin (cfg.sandboxPath :: b.sourcePath :: segments)

/-- `getBuildPath` of `createConfig`. -/
def getBuildPath (cfg : BuildConfig) (b : Build)
    (segments : List String) : String :=
  genPath cfg b "_build" segments

/-- `getInstallPath` of `createConfig`. -/
def getInstallPath (cfg : BuildConfig) (b : Build)
    (segments : List String) : String :=
  genPath cfg b "_insttmp" segments

/-- `getFinalInstallPath` of `createConfig`. -/
def getFinalInstallPath (cfg : BuildConfig) (b : Build)
    (segments : List String) : String :=
  genPath cfg b "_install" segments

/-- The store base of a build as the specification words it:
`storePath` for persisted builds, the sandbox-local store otherwise. -/
def basePath (cfg : BuildConfig) (b : Build) : String :=
  if b.shouldBePersisted then cfg.storePath
  else pathJoin [cfg.sandboxPath, "_esy", "store"]

theorem pathJoin_cons_cons (a b : String) (r : List String) :
    pathJoin (a :: b :: r) = a ++ "/" ++ pathJoin (b :: r) := by
  cases r <;> rfl

theorem pathJoin_flatten3 (a b c : String) (r : List String) :
    pathJoin (pathJoin [a, b, c] :: r) = pathJoin (a :: b :: c :: r) := by
  cases r with
  | nil => rfl
  | cons x xs =>
    simp only [pathJoin_cons_cons, pathJoin]
    simp [String.append_assoc]

theorem genPath_eq_base (cfg : BuildConfig) (b : Build) (tree : String)
    (s : List String) :
    genPath cfg b tree s = pathJoin (basePath cfg b :: tree :: b.id :: s) := by
  unfold genPath basePath sandboxLocalStorePath
  cases h : b.shouldBePersisted <;> simp [h, pathJoin_flatten3]

/-- C6: the path generators of a config created from a store path and a
sandbox path satisfy the specified equations: source is the sandbox path
followed by the build source path; root is the build path when the build
mutates its source path and the source path otherwise; build, install and
final-install are the store base followed by `_build`, `_insttmp` and
`_install` and the build id; and the store base is the store path for
persisted builds and the sandbox-local store otherwise. -/
theorem c6_path_scheme (cfg : BuildConfig) (b : Build) (s : List String) :
    getSourcePath cfg b s = pathJoin (cfg.sandboxPath :: b.sourcePath :: s) ∧
    getRootPath cfg b s =
      (if b.mutatesSourcePath then getBuildPath cfg b s
       else getSourcePath cfg b s) ∧
    getBuildPath cfg b s = pathJoin (basePath cfg b :: "_build" :: b.id :: s) ∧
    getInstallPath cfg b s =
      pathJoin (basePath cfg b :: "_insttmp" :: b.id :: s) ∧
    getFinalInstallPath cfg b s =
      pathJoin (basePath cfg b :: "_install" :: b.id :: s) ∧
    basePath cfg b =
      (if b.shouldBePersisted then cfg.storePath
       else pathJoin [cfg.sandboxPath, "_esy", "store"]) := by
  refine ⟨rfl, ?_, ?_, ?_, ?_, ?_⟩
  · unfold getRootPath getBuildPath getSourcePath
    cases b.mutatesSourcePath <;> simp
  · exact genPath_eq_base cfg b "_build" s
  · exact genPath_eq_base cfg b "_insttmp" s
  · exact genPath_eq_base cfg b "_install" s
  · rfl

theorem sizeOf_dependencies_lt (b : Build) : sizeOf b.dependencies < sizeOf b := by
  cases b with
  | mk i n v c s m p ds => simp [Build.dependencies]

theorem sum_sizeOf_lt (l : List Build) : (l.map sizeOf).sum < sizeOf l := by
  induction l with
  | nil => simp
  | cons a t ih => simp at *; omega

theorem sizeOf_build_pos (b : Build) : 0 < sizeOf b := by
  cases b; simp only [Build.mk.sizeOf_spec]; omega

/-- Worker loop of the BFS `traverse` of `build-repr.js`: a queue and a
seen set of ids; the visited builds are returned in visitation order. -/
def bfsAux : List Build → List String → List Build
  | [], _ => []
  | cur :: queue, seen =>
    if cur.id ∈ seen then bfsAux queue seen
    else cur :: bfsAux (queue ++ cur.dependencies) (cur.id :: seen)
termination_by q _ => (q.map sizeOf).sum
decreasing_by
  · simp
    have := sizeOf_build_pos cur
    omega
  · simp
    have h1 := sum_sizeOf_lt cur.dependencies
    have h2 := sizeOf_dependencies_lt cur
    omega

/-- The BFS `traverse` of `build-repr.js`, as the ordered list of builds
passed to the visitor. -/
def bfsVisit (b : Build) : List Build := bfsAux [b] []

mutual

/-- Recursive worker of `traverseDeepFirst` of `build-repr.js`: marks the
build before recursing into dependencies and emits it afterwards.
Returns the extended seen set and the emitted builds in emission order. -/
def dfsAux (seen : List String) (b : Build) : List String × List Build :=
  if b.id ∈ seen then (seen, [])
  else
    let res := dfsAuxList (b.id :: seen) b.dependencies
    (res.1, res.2 ++ [b])
termination_by sizeOf b
decreasing_by
  exact sizeOf_dependencies_lt b

def dfsAuxList (seen : List String) (l : List Build) : List String × List Build :=
  match l with
  | [] => (seen, [])
  | d :: ds =>
    let r1 := dfsAux seen d
    let r2 := dfsAuxList r1.1 ds
    (r2.1, r1.2 ++ r2.2)
termination_by sizeOf l
decreasing_by
  · simp; omega
  · simp

end

/-- `traverseDeepFirst` of `build-repr.js`, as the ordered list of builds
passed to the visitor. -/
def dfsVisit (b : Build) : List Build := (dfsAux [] b).2

/-- `collectTransitiveDependencies` of `build-repr.js`: the BFS
visitation minus the root build itself. -/
def collectTransitiveDependencies (b : Build) : List Build :=
  (bfsVisit b).filter (fun cur => cur ≠ b)

mutual

/-- All nodes of the dependency tree below (and including) a build. -/
def allNodes : Build → List Build
  | .mk i n v c s m p ds => .mk i n v c s m p ds :: allNodesList ds

def allNodesList : List Build → List Build
  | [] => []
  | b :: bs => allNodes b ++ allNodesList bs

end

/-- The graph reachable from the root is deduplicated by id: two
reachable builds with the same id are the same build. -/
def Coherent (root : Build) : Prop :=
  ∀ u ∈ allNodes root, ∀ v ∈ allNodes root, u.id = v.id → u = v

instance (root : Build) : Decidable (Coherent root) := by
  unfold Coherent; infer_instance

/-- The graph reachable from the root is a DAG in id space: no build
reachable through a dependency of a reachable build carries the id of
that build. -/
def Acyclic (root : Build) : Prop :=
  ∀ u ∈ allNodes root, ∀ d ∈ u.dependencies, ∀ v ∈ allNodes d, v.id ≠ u.id

instance (root : Build) : Decidable (Acyclic root) := by
  unfold Acyclic; infer_instance

theorem self_mem_allNodes (b : Build) : b ∈ allNodes b := by
  cases b with
  | mk i n v c s m p ds => rw [allNodes]; exact List.mem_cons_self _ _

theorem mem_allNodesList {u : Build} {l : List Build} :
    u ∈ allNodesList l ↔ ∃ c ∈ l, u ∈ allNodes c := by
  induction l with
  | nil => simp [allNodesList]
  | cons b bs ih => rw [allNodesList]; simp [ih]

theorem mem_allNodes_iff {u b : Build} :
    u ∈ allNodes b ↔ u = b ∨ ∃ d ∈ b.dependencies, u ∈ allNodes d := by
  cases b with
  | mk i n v c s m p ds =>
    rw [allNodes]
    simp [mem_allNodesList, Build.dependencies]

theorem deps_mem_allNodes {d b : Build} (h : d ∈ b.dependencies) :
    d ∈ allNodes b := by
  rw [mem_allNodes_iff]
  exact Or.inr ⟨d, h, self_mem_allNodes d⟩

theorem mem_allNodes_trans :
    ∀ b c u : Build, c ∈ allNodes b → u ∈ allNodes c → u ∈ allNodes b := by
  refine allNodes.induct
    (fun b => ∀ c u, c ∈ allNodes b → u ∈ allNodes c → u ∈ allNodes b)
    (fun l => ∀ c u, c ∈ allNodesList l → u ∈ allNodes c → u ∈ allNodesList l)
    ?_ ?_ ?_
  · intro i n v c s m p ds ih cc u hc hu
    rw [allNodes] at hc ⊢
    rcases List.mem_cons.1 hc with h | h
    · subst h; rw [allNodes] at hu; exact hu
    · exact List.mem_cons.2 (Or.inr (ih cc u h hu))
  · intro c u h _; simp [allNodesList] at h
  · intro b bs ih1 ih2 c u hc hu
    rw [allNodesList] at hc ⊢
    rcases List.mem_append.1 hc with h | h
    · exact List.mem_append.2 (Or.inl (ih1 c u h hu))
    · exact List.mem_append.2 (Or.inr (ih2 c u h hu))

theorem bfsAux_nodup (q : List Build) (s : List String) :
    ((bfsAux q s).map Build.id).Nodup ∧
      ∀ x ∈ (bfsAux q s).map Build.id, x ∉ s := by
  induction q, s using bfsAux.induct with
  | case1 s => simp [bfsAux]
  | case2 cur queue seen h ih => rw [bfsAux]; simpa [h] using ih
  | case3 cur queue seen h ih =>
    rw [bfsAux]
    simp only [if_neg h, List.map_cons, List.nodup_cons, List.mem_cons]
    obtain ⟨ihn, ihs⟩ := ih
    refine ⟨⟨fun hmem => ?_, ihn⟩, ?_⟩
    · exact (ihs _ hmem) (List.mem_cons_self _ _)
    · rintro x (rfl | hx)
      · exact h
      · intro hxs; exact (ihs x hx) (List.mem_cons_of_mem _ hxs)

theorem bfsAux_sound (q : List Build) (s : List String) :
    ∀ u ∈ bfsAux q s, ∃ c ∈ q, u ∈ allNodes c := by
  induction q, s using bfsAux.induct with
  | case1 s => simp [bfsAux]
  | case2 cur queue seen h ih =>
    rw [bfsAux]
    simp only [if_pos h]
    intro u hu
    obtain ⟨c, hc, hmem⟩ := ih u hu
    exact ⟨c, List.mem_cons_of_mem _ hc, hmem⟩
  | case3 cur queue seen h ih =>
    rw [bfsAux]
    simp only [if_neg h]
    intro u hu
    rcases List.mem_cons.1 hu with rfl | hu
    · exact ⟨u, List.mem_cons_self _ _, self_mem_allNodes u⟩
    · obtain ⟨c, hc, hmem⟩ := ih u hu
      rcases List.mem_append.1 hc with hc | hc
      · exact ⟨c, List.mem_cons_of_mem _ hc, hmem⟩
      · exact ⟨cur, List.mem_cons_self _ _,
          mem_allNodes_trans cur c u (deps_mem_allNodes hc) hmem⟩

/-- Invariant of the BFS worker: every queued build is reachable, and
every seen id belongs to a reachable build each of whose dependencies is
either already seen or still pending in the queue. -/
def QueueInv (root : Build) (q : List Build) (s : List String) : Prop :=
  (∀ c ∈ q, c ∈ allNodes root) ∧
  ∀ x ∈ s, ∃ n ∈ allNodes root, n.id = x ∧
    ∀ d ∈ n.dependencies, d.id ∈ s ∨ ∃ c ∈ q, c.id = d.id

theorem bfsAux_closed (root : Build) (hcoh : Coherent root) :
    ∀ q s, QueueInv root q s →
      (∀ c ∈ q, c.id ∈ (bfsAux q s).map Build.id ∨ c.id ∈ s) ∧
      (∀ x, (x ∈ (bfsAux q s).map Build.id ∨ x ∈ s) →
        ∀ n ∈ allNodes root, n.id = x →
          ∀ d ∈ n.dependencies,
            d.id ∈ (bfsAux q s).map Build.id ∨ d.id ∈ s) := by
  intro q s
  induction q, s using bfsAux.induct with
  | case1 s =>
    intro ⟨hq, hs⟩
    rw [bfsAux]
    refine ⟨by simp, ?_⟩
    intro x hx n hn hid d hd
    simp only [List.map_nil, List.not_mem_nil, false_or] at hx ⊢
    obtain ⟨n0, hn0, hn0id, hdep⟩ := hs x hx
    have : n = n0 := hcoh n hn n0 hn0 (by rw [hid, hn0id])
    subst this
    rcases hdep d hd with h | ⟨c, hc, _⟩
    · exact h
    · exact absurd hc (List.not_mem_nil c)
  | case2 cur queue seen h ih =>
    intro ⟨hq, hs⟩
    rw [bfsAux]
    simp only [if_pos h]
    have hinv : QueueInv root queue seen := by
      refine ⟨fun c hc => hq c (List.mem_cons_of_mem _ hc), ?_⟩
      intro x hx
      obtain ⟨n0, hn0, hn0id, hdep⟩ := hs x hx
      refine ⟨n0, hn0, hn0id, fun d hd => ?_⟩
      rcases hdep d hd with hds | ⟨c, hc, hcid⟩
      · exact Or.inl hds
      · rcases List.mem_cons.1 hc with rfl | hc
        · exact Or.inl (hcid ▸ h)
        · exact Or.inr ⟨c, hc, hcid⟩
    obtain ⟨c1, c2⟩ := ih hinv
    refine ⟨?_, c2⟩
    intro c hc
    rcases List.mem_cons.1 hc with rfl | hc
    · exact Or.inr h
    · exact c1 c hc
  | case3 cur queue seen h ih =>
    intro ⟨hq, hs⟩
    rw [bfsAux]
    simp only [if_neg h]
    have hcur : cur ∈ allNodes root := hq cur (List.mem_cons_self _ _)
    have hinv : QueueInv root (queue ++ cur.dependencies) (cur.id :: seen) := by
      constructor
      · intro c hc
        rcases List.mem_append.1 hc with hc | hc
        · exact hq c (List.mem_cons_of_mem _ hc)
        · exact mem_allNodes_trans root cur c hcur (deps_mem_allNodes hc)
      · intro x hx
        rcases List.mem_cons.1 hx with rfl | hx
        · refine ⟨cur, hcur, rfl, fun d hd => ?_⟩
          exact Or.inr ⟨d, List.mem_append.2 (Or.inr hd), rfl⟩
        · obtain ⟨n0, hn0, hn0id, hdep⟩ := hs x hx
          refine ⟨n0, hn0, hn0id, fun d hd => ?_⟩
          rcases hdep d hd with hds | ⟨c, hc, hcid⟩
          · exact Or.inl (List.mem_cons_of_mem _ hds)
          · rcases List.mem_cons.1 hc with rfl | hc
            · exact Or.inl (hcid ▸ List.mem_cons_self _ _)
            · exact Or.inr ⟨c, List.mem_append.2 (Or.inl hc), hcid⟩
    obtain ⟨c1, c2⟩ := ih hinv
    constructor
    · intro c hc
      rcases List.mem_cons.1 hc with rfl | hc
      · exact Or.inl (by simp)
      · rcases c1 c (List.mem_append.2 (Or.inl hc)) with hin | hin
        · exact Or.inl (by simp [hin])
        · rcases List.mem_cons.1 hin with heq | hin
          · exact Or.inl (by simp [heq])
          · exact Or.inr hin
    · intro x hx n hn hid d hd
      have hx' : x ∈ (bfsAux (queue ++ cur.dependencies) (cur.id :: seen)).map
          Build.id ∨ x ∈ cur.id :: seen := by
        rcases hx with hx | hx
        · simp only [List.map_cons, List.mem_cons] at hx
          rcases hx with rfl | hx
          · exact Or.inr (List.mem_cons_self _ _)
          · exact Or.inl hx
        · exact Or.inr (List.mem_cons_of_mem _ hx)
      rcases c2 x hx' n hn hid d hd with hin | hin
      · exact Or.inl (by simp [hin])
      · rcases List.mem_cons.1 hin with heq | hin
        · exact Or.inl (by simp [heq])
        · exact Or.inr hin

theorem bfs_complete (root : Build) (hcoh : Coherent root) :
    ∀ u ∈ allNodes root, u.id ∈ (bfsVisit root).map Build.id := by
  have hinv : QueueInv root [root] [] := by
    refine ⟨fun c hc => ?_, by simp⟩
    rcases List.mem_cons.1 hc with rfl | hc
    · exact self_mem_allNodes c
    · exact absurd hc (List.not_mem_nil c)
  obtain ⟨c1, c2⟩ := bfsAux_closed root hcoh [root] [] hinv
  have hroot : root.id ∈ (bfsVisit root).map Build.id := by
    rcases c1 root (List.mem_cons_self _ _) with hin | hin
    · exact hin
    · exact absurd hin (List.not_mem_nil _)
  have key : ∀ c, c ∈ allNodes root →
      c.id ∈ (bfsVisit root).map Build.id →
      ∀ u ∈ allNodes c, u.id ∈ (bfsVisit root).map Build.id := by
    refine allNodes.induct
      (fun c => c ∈ allNodes root →
        c.id ∈ (bfsVisit root).map Build.id →
        ∀ u ∈ allNodes c, u.id ∈ (bfsVisit root).map Build.id)
      (fun l => (∀ d ∈ l, d ∈ allNodes root) →
        (∀ d ∈ l, d.id ∈ (bfsVisit root).map Build.id) →
        ∀ u ∈ allNodesList l, u.id ∈ (bfsVisit root).map Build.id)
      ?_ ?_ ?_
    · intro i n v c s m p ds ih hmem hid u hu
      rw [allNodes] at hu
      rcases List.mem_cons.1 hu with rfl | hu
      · exact hid
      · refine ih ?_ ?_ u hu
        · intro d hd
          exact mem_allNodes_trans root _ d hmem
            (deps_mem_allNodes (by simp [Build.dependencies, hd]))
        · intro d hd
          have := c2 _ (Or.inl hid) _ hmem rfl d
            (by simp [Build.dependencies, hd])
          rcases this with hin | hin
          · exact hin
          · exact absurd hin (List.not_mem_nil _)
    · intro _ _ u hu; simp [allNodesList] at hu
    · intro b bs ih1 ih2 hmem hid u hu
      rw [allNodesList] at hu
      rcases List.mem_append.1 hu with hu | hu
      · exact ih1 (hmem b (List.mem_cons_self _ _))
          (hid b (List.mem_cons_self _ _)) u hu
      · exact ih2 (fun d hd => hmem d (List.mem_cons_of_mem _ hd))
          (fun d hd => hid d (List.mem_cons_of_mem _ hd)) u hu
  intro u hu
  exact key root (self_mem_allNodes root) hroot u hu

theorem dfs_seen :
    (∀ seen b,
      (((dfsAux seen b).2.map Build.id).Nodup ∧
        ∀ x ∈ (dfsAux seen b).2.map Build.id, x ∉ seen) ∧
      (∀ x, x ∈ (dfsAux seen b).1 ↔
        x ∈ (dfsAux seen b).2.map Build.id ∨ x ∈ seen)) ∧
    (∀ seen l,
      (((dfsAuxList seen l).2.map Build.id).Nodup ∧
        ∀ x ∈ (dfsAuxList seen l).2.map Build.id, x ∉ seen) ∧
      (∀ x, x ∈ (dfsAuxList seen l).1 ↔
        x ∈ (dfsAuxList seen l).2.map Build.id ∨ x ∈ seen)) := by
  refine dfsAux.mutual_induct
    (fun seen b =>
      (((dfsAux seen b).2.map Build.id).Nodup ∧
        ∀ x ∈ (dfsAux seen b).2.map Build.id, x ∉ seen) ∧
      (∀ x, x ∈ (dfsAux seen b).1 ↔
        x ∈ (dfsAux seen b).2.map Build.id ∨ x ∈ seen))
    (fun seen l =>
      (((dfsAuxList seen l).2.map Build.id).Nodup ∧
        ∀ x ∈ (dfsAuxList seen l).2.map Build.id, x ∉ seen) ∧
      (∀ x, x ∈ (dfsAuxList seen l).1 ↔
        x ∈ (dfsAuxList seen l).2.map Build.id ∨ x ∈ seen))
    ?_ ?_ ?_ ?_
  · intro seen b h
    rw [dfsAux]
    simp [h]
  · intro seen b h ih
    rw [dfsAux]
    simp only [if_neg h]
    obtain ⟨⟨ihn, ihs⟩, ihf⟩ := ih
    refine ⟨⟨?_, ?_⟩, ?_⟩
    · simp only [List.map_append, List.map_cons, List.map_nil]
      rw [List.nodup_append]
      refine ⟨ihn, List.nodup_singleton _, ?_⟩
      intro x hx heq
      simp only [List.mem_singleton] at heq
      subst heq
      exact (ihs _ hx) (List.mem_cons_self _ _)
    · intro x hx
      simp only [List.map_append, List.map_cons, List.map_nil,
        List.mem_append, List.mem_singleton] at hx
      rcases hx with hx | rfl
      · intro hxs; exact (ihs x hx) (List.mem_cons_of_mem _ hxs)
      · exact h
    · intro x
      rw [ihf x]
      simp only [List.map_append, List.map_cons, List.map_nil,
        List.mem_append, List.mem_singleton, List.mem_cons]
      tauto
  · intro seen
    rw [dfsAuxList]
    simp
  · intro seen d ds r1 ih1 ih2
    rw [dfsAuxList]
    simp only []
    obtain ⟨⟨ihn1, ihs1⟩, ihf1⟩ := ih1
    obtain ⟨⟨ihn2, ihs2⟩, ihf2⟩ := ih2
    refine ⟨⟨?_, ?_⟩, ?_⟩
    · simp only [List.map_append]
      rw [List.nodup_append]
      refine ⟨ihn1, ihn2, ?_⟩
      intro x hx1 hx2
      exact (ihs2 x hx2) ((ihf1 x).2 (Or.inl hx1))
    · intro x hx
      simp only [List.map_append, List.mem_append] at hx
      rcases hx with hx | hx
      · exact ihs1 x hx
      · intro hxs
        exact (ihs2 x hx) ((ihf1 x).2 (Or.inr hxs))
    · intro x
      rw [ihf2 x]
      simp only [List.map_append, List.mem_append]
      rw [ihf1 x]
      tauto

theorem dfsAux_fst_iff (seen : List String) (b : Build) :
    ∀ x, x ∈ (dfsAux seen b).1 ↔
      x ∈ (dfsAux seen b).2.map Build.id ∨ x ∈ seen :=
  (dfs_seen.1 seen b).2

theorem dfsAuxList_fst_iff (seen : List String) (l : List Build) :
    ∀ x, x ∈ (dfsAuxList seen l).1 ↔
      x ∈ (dfsAuxList seen l).2.map Build.id ∨ x ∈ seen :=
  (dfs_seen.2 seen l).2

theorem dfsAux_id_mem_fst (seen : List String) (b : Build) :
    b.id ∈ (dfsAux seen b).1 := by
  rw [dfsAux]
  split
  · next h => exact h
  · next h =>
    simp only []
    exact (dfsAuxList_fst_iff _ _ _).2 (Or.inr (List.mem_cons_self _ _))

theorem dfsAuxList_ids_mem_fst (seen : List String) (l : List Build) :
    ∀ d ∈ l, d.id ∈ (dfsAuxList seen l).1 := by
  induction l generalizing seen with
  | nil => simp
  | cons d0 ds ih =>
    intro d hd
    rw [dfsAuxList]
    simp only []
    rcases List.mem_cons.1 hd with rfl | hd
    · exact (dfsAuxList_fst_iff _ _ _).2 (Or.inr (dfsAux_id_mem_fst seen d))
    · exact ih _ d hd

theorem dfs_sound :
    (∀ seen b, ∀ u ∈ (dfsAux seen b).2, u ∈ allNodes b) ∧
    (∀ seen l, ∀ u ∈ (dfsAuxList seen l).2, u ∈ allNodesList l) := by
  refine dfsAux.mutual_induct
    (fun seen b => ∀ u ∈ (dfsAux seen b).2, u ∈ allNodes b)
    (fun seen l => ∀ u ∈ (dfsAuxList seen l).2, u ∈ allNodesList l)
    ?_ ?_ ?_ ?_
  · intro seen b h
    rw [dfsAux]; simp [h]
  · intro seen b h ih
    rw [dfsAux]
    simp only [if_neg h]
    intro u hu
    rcases List.mem_append.1 hu with hu | hu
    · obtain ⟨d, hd, hmem⟩ := mem_allNodesList.1 (ih u hu)
      exact mem_allNodes_iff.2 (Or.inr ⟨d, hd, hmem⟩)
    · simp only [List.mem_singleton] at hu
      subst hu
      exact self_mem_allNodes u
  · intro seen
    rw [dfsAuxList]; simp
  · intro seen d ds r1 ih1 ih2
    rw [dfsAuxList]
    simp only []
    intro u hu
    rcases List.mem_append.1 hu with hu | hu
    · exact mem_allNodesList.2 ⟨d, List.mem_cons_self _ _, ih1 u hu⟩
    · obtain ⟨c, hc, hmem⟩ := mem_allNodesList.1 (ih2 u hu)
      exact mem_allNodesList.2 ⟨c, List.mem_cons_of_mem _ hc, hmem⟩

/-- Seen ids whose whole reachable subtree is already seen, except for
ids on the current recursion path. -/
def ClosedExcept (root : Build) (pi s : List String) : Prop :=
  ∀ x ∈ s, x ∈ pi ∨
    ∀ n ∈ allNodes root, n.id = x → ∀ w ∈ allNodes n, w.id ∈ s

theorem dfs_complete_aux (root : Build) (hcoh : Coherent root)
    (hacy : Acyclic root) :
    (∀ seen b, ∀ pi, b ∈ allNodes root → ClosedExcept root pi seen →
      (∀ u ∈ allNodes b, u.id ∉ pi) →
      (∀ u ∈ allNodes b, u.id ∈ (dfsAux seen b).1) ∧
        ClosedExcept root pi (dfsAux seen b).1) ∧
    (∀ seen l, ∀ pi, (∀ c ∈ l, c ∈ allNodes root) →
      ClosedExcept root pi seen →
      (∀ c ∈ l, ∀ u ∈ allNodes c, u.id ∉ pi) →
      (∀ c ∈ l, ∀ u ∈ allNodes c, u.id ∈ (dfsAuxList seen l).1) ∧
        ClosedExcept root pi (dfsAuxList seen l).1) := by
  refine dfsAux.mutual_induct
    (fun seen b => ∀ pi, b ∈ allNodes root → ClosedExcept root pi seen →
      (∀ u ∈ allNodes b, u.id ∉ pi) →
      (∀ u ∈ allNodes b, u.id ∈ (dfsAux seen b).1) ∧
        ClosedExcept root pi (dfsAux seen b).1)
    (fun seen l => ∀ pi, (∀ c ∈ l, c ∈ allNodes root) →
      ClosedExcept root pi seen →
      (∀ c ∈ l, ∀ u ∈ allNodes c, u.id ∉ pi) →
      (∀ c ∈ l, ∀ u ∈ allNodes c, u.id ∈ (dfsAuxList seen l).1) ∧
        ClosedExcept root pi (dfsAuxList seen l).1)
    ?_ ?_ ?_ ?_
  · intro seen b h pi hb hclosed hpi
    rw [dfsAux]
    simp only [if_pos h]
    refine ⟨?_, hclosed⟩
    rcases hclosed b.id h with hmem | hcl
    · exact absurd hmem (hpi b (self_mem_allNodes b))
    · exact hcl b hb rfl
  · intro seen b h ih pi hb hclosed hpi
    rw [dfsAux]
    simp only [if_neg h]
    have hdepsU : ∀ c ∈ b.dependencies, c ∈ allNodes root := fun c hc =>
      mem_allNodes_trans root b c hb (deps_mem_allNodes hc)
    have hclosed' : ClosedExcept root (b.id :: pi) (b.id :: seen) := by
      intro x hx
      rcases List.mem_cons.1 hx with rfl | hx
      · exact Or.inl (List.mem_cons_self _ _)
      · rcases hclosed x hx with hmem | hcl
        · exact Or.inl (List.mem_cons_of_mem _ hmem)
        · exact Or.inr fun n hn hid w hw =>
            List.mem_cons_of_mem _ (hcl n hn hid w hw)
    have hpi' : ∀ c ∈ b.dependencies, ∀ u ∈ allNodes c,
        u.id ∉ b.id :: pi := by
      intro c hc u hu hmem
      rcases List.mem_cons.1 hmem with heq | hmem
      · exact hacy b hb c hc u hu heq
      · exact hpi u (mem_allNodes_iff.2 (Or.inr ⟨c, hc, hu⟩)) hmem
    obtain ⟨hcov, hcl'⟩ := ih (b.id :: pi) hdepsU hclosed' hpi'
    have hbid : b.id ∈ (dfsAuxList (b.id :: seen) b.dependencies).1 :=
      (dfsAuxList_fst_iff _ _ _).2 (Or.inr (List.mem_cons_self _ _))
    have hcover : ∀ u ∈ allNodes b,
        u.id ∈ (dfsAuxList (b.id :: seen) b.dependencies).1 := by
      intro u hu
      rcases mem_allNodes_iff.1 hu with rfl | ⟨d, hd, hmem⟩
      · exact hbid
      · exact hcov d hd u hmem
    refine ⟨hcover, ?_⟩
    intro x hx
    rcases hcl' x hx with hmem | hcl
    · rcases List.mem_cons.1 hmem with rfl | hmem
      · refine Or.inr fun n hn hid w hw => ?_
        have : n = b := hcoh n hn b hb hid
        subst this
        exact hcover w hw
      · exact Or.inl hmem
    · exact Or.inr hcl
  · intro seen pi _ hclosed _
    rw [dfsAuxList]
    exact ⟨by simp, hclosed⟩
  · intro seen d ds r1 ih1 ih2 pi hU hclosed hpi
    rw [dfsAuxList]
    simp only []
    obtain ⟨hcov1, hcl1⟩ := ih1 pi (hU d (List.mem_cons_self _ _)) hclosed
      (hpi d (List.mem_cons_self _ _))
    obtain ⟨hcov2, hcl2⟩ := ih2 pi
      (fun c hc => hU c (List.mem_cons_of_mem _ hc)) hcl1
      (fun c hc => hpi c (List.mem_cons_of_mem _ hc))
    refine ⟨?_, hcl2⟩
    intro c hc u hu
    rcases List.mem_cons.1 hc with rfl | hc
    · have h1 : u.id ∈ (dfsAux seen c).1 := hcov1 u hu
      rcases (dfsAux_fst_iff _ _ _).1 h1 with hin | hin
      · exact (dfsAuxList_fst_iff _ _ _).2
          (Or.inr ((dfsAux_fst_iff _ _ _).2 (Or.inl hin)))
      · exact (dfsAuxList_fst_iff _ _ _).2
          (Or.inr ((dfsAux_fst_iff _ _ _).2 (Or.inr hin)))
    · exact hcov2 c hc u hu

theorem dfs_complete (root : Build) (hcoh : Coherent root)
    (hacy : Acyclic root) :
    ∀ u ∈ allNodes root, u.id ∈ (dfsVisit root).map Build.id := by
  intro u hu
  have hclosed : ClosedExcept root [] [] := by intro x hx; simp at hx
  obtain ⟨hcov, _⟩ := (dfs_complete_aux root hcoh hacy).1 [] root []
    (self_mem_allNodes root) hclosed (by simp)
  have := hcov u hu
  rcases (dfsAux_fst_iff _ _ _).1 this with hin | hin
  · exact hin
  · exact absurd hin (List.not_mem_nil _)

theorem dfs_order_aux (root : Build) (hacy : Acyclic root) :
    (∀ seen b, b ∈ allNodes root →
      ∀ o1 n o2, (dfsAux seen b).2 = o1 ++ n :: o2 →
        ∀ d ∈ n.dependencies, d.id ∈ o1.map Build.id ∨ d.id ∈ seen) ∧
    (∀ seen l, (∀ c ∈ l, c ∈ allNodes root) →
      ∀ o1 n o2, (dfsAuxList seen l).2 = o1 ++ n :: o2 →
        ∀ d ∈ n.dependencies, d.id ∈ o1.map Build.id ∨ d.id ∈ seen) := by
  refine dfsAux.mutual_induct
    (fun seen b => b ∈ allNodes root →
      ∀ o1 n o2, (dfsAux seen b).2 = o1 ++ n :: o2 →
        ∀ d ∈ n.dependencies, d.id ∈ o1.map Build.id ∨ d.id ∈ seen)
    (fun seen l => (∀ c ∈ l, c ∈ allNodes root) →
      ∀ o1 n o2, (dfsAuxList seen l).2 = o1 ++ n :: o2 →
        ∀ d ∈ n.dependencies, d.id ∈ o1.map Build.id ∨ d.id ∈ seen)
    ?_ ?_ ?_ ?_
  · intro seen b h _ o1 n o2 hsplit
    rw [dfsAux] at hsplit
    simp only [if_pos h] at hsplit
    exact absurd hsplit.symm (by simp)
  · intro seen b h ih hb o1 n o2 hsplit
    rw [dfsAux] at hsplit
    simp only [if_neg h] at hsplit
    have hdepsU : ∀ c ∈ b.dependencies, c ∈ allNodes root := fun c hc =>
      mem_allNodes_trans root b c hb (deps_mem_allNodes hc)
    have keySelf : ∀ d ∈ b.dependencies,
        d.id ∈ ((dfsAuxList (b.id :: seen) b.dependencies).2.map Build.id) ∨
          d.id ∈ seen := by
      intro d hd
      have h1 := dfsAuxList_ids_mem_fst (b.id :: seen) b.dependencies d hd
      rcases (dfsAuxList_fst_iff _ _ _).1 h1 with hin | hin
      · exact Or.inl hin
      · rcases List.mem_cons.1 hin with heq | hin
        · exact absurd heq (hacy b hb d hd d (self_mem_allNodes d))
        · exact Or.inr hin
    rcases List.append_eq_append_iff.1 hsplit with ⟨a1, ho1, hsing⟩ |
        ⟨c1, hr2, hcons⟩
    · cases a1 with
      | nil =>
        simp only [List.nil_append] at hsing
        injection hsing with h1 h2
        subst h1
        subst h2
        simp only [List.append_nil] at ho1
        subst ho1
        intro d hd
        exact keySelf d hd
      | cons x xs =>
        exfalso
        rw [List.cons_append] at hsing
        injection hsing with h1 h2
        exact (List.cons_ne_nil n o2) (List.append_eq_nil.1 h2.symm).2
    · cases c1 with
      | nil =>
        simp only [List.nil_append] at hcons
        injection hcons with h1 h2
        subst h1
        subst h2
        simp only [List.append_nil] at hr2
        intro d hd
        rcases keySelf d hd with hin | hin
        · exact Or.inl (hr2 ▸ hin)
        · exact Or.inr hin
      | cons y c2 =>
        rw [List.cons_append] at hcons
        injection hcons with h1 h2
        subst h1
        intro d hd
        rcases ih hdepsU o1 n c2 hr2 d hd with hin | hin
        · exact Or.inl hin
        · rcases List.mem_cons.1 hin with heq | hin
          · exfalso
            have hnmem : n ∈ (dfsAuxList (b.id :: seen) b.dependencies).2 := by
              rw [hr2]
              exact List.mem_append.2 (Or.inr (List.mem_cons_self _ _))
            obtain ⟨dd, hdd, hnin⟩ :=
              mem_allNodesList.1 (dfs_sound.2 _ _ n hnmem)
            have hdmem : d ∈ allNodes dd :=
              mem_allNodes_trans dd n d hnin (deps_mem_allNodes hd)
            exact hacy b hb dd hdd d hdmem heq
          · exact Or.inr hin
  · intro seen _ o1 n o2 hsplit
    rw [dfsAuxList] at hsplit
    exact absurd hsplit.symm (by simp)
  · intro seen d0 ds r1 ih1 ih2 hU o1 n o2 hsplit
    rw [dfsAuxList] at hsplit
    simp only [] at hsplit
    have hd0U : d0 ∈ allNodes root := hU d0 (List.mem_cons_self _ _)
    have hdsU : ∀ c ∈ ds, c ∈ allNodes root := fun c hc =>
      hU c (List.mem_cons_of_mem _ hc)
    have convert1 : ∀ x, x ∈ (dfsAux seen d0).1 →
        x ∈ (dfsAux seen d0).2.map Build.id ∨ x ∈ seen :=
      fun x hx => (dfsAux_fst_iff _ _ _).1 hx
    rcases List.append_eq_append_iff.1 hsplit with ⟨a1, ho1, htail⟩ |
        ⟨c1, hr12, hcons⟩
    · intro d hd
      rcases ih2 hdsU a1 n o2 htail d hd with hin | hin
      · refine Or.inl ?_
        subst ho1
        simp only [List.map_append, List.mem_append]
        exact Or.inr hin
      · rcases convert1 _ hin with hin | hin
        · refine Or.inl ?_
          subst ho1
          simp only [List.map_append, List.mem_append]
          exact Or.inl hin
        · exact Or.inr hin
    · cases c1 with
      | nil =>
        simp only [List.nil_append] at hcons
        simp only [List.append_nil] at hr12
        intro d hd
        have hsp : (dfsAuxList (dfsAux seen d0).1 ds).2 = [] ++ n :: o2 := by
          simpa using hcons.symm
        rcases ih2 hdsU [] n o2 hsp d hd with hin | hin
        · simp at hin
        · rcases convert1 _ hin with hin | hin
          · exact Or.inl (hr12 ▸ hin)
          · exact Or.inr hin
      | cons y c2 =>
        rw [List.cons_append] at hcons
        injection hcons with h1 h2
        subst h1
        intro d hd
        exact ih1 hd0U o1 n c2 hr12 d hd

theorem bfsVisit_eq_cons (b : Build) :
    bfsVisit b = b :: bfsAux b.dependencies [b.id] := by
  unfold bfsVisit
  rw [bfsAux]
  simp

theorem collect_eq_tail (b : Build) :
    collectTransitiveDependencies b = (bfsVisit b).tail := by
  unfold collectTransitiveDependencies
  rw [bfsVisit_eq_cons b]
  simp only [List.tail_cons, List.filter_cons]
  have hbf : ¬ (b ≠ b) := fun h => h rfl
  simp only [decide_eq_true_eq, hbf, if_false]
  rw [List.filter_eq_self]
  intro u hu
  have hids := (bfsAux_nodup b.dependencies [b.id]).2
  have : u.id ∉ [b.id] := hids u.id (List.mem_map_of_mem Build.id hu)
  simp only [List.mem_singleton] at this
  simp only [decide_eq_true_eq]
  intro heq
  exact this (by rw [heq])

/-- C7: on a build graph whose reachable portion is a finite DAG with
builds deduplicated by id, the BFS traversal and the post-order DFS
traversal each visit every distinct reachable id exactly once, the
post-order DFS emits every dependency of a node before the node itself,
and collectTransitiveDependencies returns the BFS visitation minus the
root build itself. -/
theorem c7_traversals (root : Build) (hcoh : Coherent root)
    (hacy : Acyclic root) :
    ((bfsVisit root).map Build.id).Nodup ∧
    (∀ x, x ∈ (bfsVisit root).map Build.id ↔
      x ∈ (allNodes root).map Build.id) ∧
    ((dfsVisit root).map Build.id).Nodup ∧
    (∀ x, x ∈ (dfsVisit root).map Build.id ↔
      x ∈ (allNodes root).map Build.id) ∧
    (∀ o1 n o2, dfsVisit root = o1 ++ n :: o2 →
      ∀ d ∈ n.dependencies, d.id ∈ o1.map Build.id) ∧
    collectTransitiveDependencies root = (bfsVisit root).tail := by
  refine ⟨(bfsAux_nodup [root] []).1, ?_, (dfs_seen.1 [] root).1.1, ?_, ?_, ?_⟩
  · intro x
    constructor
    · intro hx
      obtain ⟨u, hu, rfl⟩ := List.mem_map.1 hx
      obtain ⟨c, hc, hmem⟩ := bfsAux_sound [root] [] u hu
      rcases List.mem_cons.1 hc with rfl | hc
      · exact List.mem_map_of_mem Build.id hmem
      · exact absurd hc (List.not_mem_nil c)
    · intro hx
      obtain ⟨u, hu, rfl⟩ := List.mem_map.1 hx
      exact bfs_complete root hcoh u hu
  · intro x
    constructor
    · intro hx
      obtain ⟨u, hu, rfl⟩ := List.mem_map.1 hx
      exact List.mem_map_of_mem Build.id (dfs_sound.1 [] root u hu)
    · intro hx
      obtain ⟨u, hu, rfl⟩ := List.mem_map.1 hx
      exact dfs_complete root hcoh hacy u hu
  · intro o1 n o2 hsplit d hd
    rcases (dfs_order_aux root hacy).1 [] root (self_mem_allNodes root)
      o1 n o2 hsplit d hd with hin | hin
    · exact hin
    · exact absurd hin (List.not_mem_nil _)
  · exact collect_eq_tail root

/-- A single leaf build used in concrete instantiations. -/
def exL : Build := .mk "idL" "L" "1" none "l" false true []

/-- A middle build depending on the leaf. -/
def exA : Build := .mk "idA" "A" "1" none "a" false true [exL]

/-- A second middle build depending on the leaf. -/
def exB : Build := .mk "idB" "B" "1" none "b" false true [exL]

/-- A diamond root: depends on both middle builds, which share the
leaf. -/
def exR : Build := .mk "idR" "R" "1" none "r" false true [exA, exB]

/-- Witness for C7: the diamond graph satisfies both hypotheses and the
theorem applies to it. -/
theorem c7_traversals_witness :
    Coherent exR ∧ Acyclic exR ∧
    (((bfsVisit exR).map Build.id).Nodup ∧
    (∀ x, x ∈ (bfsVisit exR).map Build.id ↔
      x ∈ (allNodes exR).map Build.id) ∧
    ((dfsVisit exR).map Build.id).Nodup ∧
    (∀ x, x ∈ (dfsVisit exR).map Build.id ↔
      x ∈ (allNodes exR).map Build.id) ∧
    (∀ o1 n o2, dfsVisit exR = o1 ++ n :: o2 →
      ∀ d ∈ n.dependencies, d.id ∈ o1.map Build.id) ∧
    collectTransitiveDependencies exR = (bfsVisit exR).tail) :=
  ⟨by decide, by decide, c7_traversals exR (by decide) (by decide)⟩

/-- The findlib `path` value of `renderFindlibConf` in
`simple-builder.js`: final install lib of every entry of
`collectTransitiveDependencies`, with the install staging lib of the
build itself appended last, joined with a colon. -/
def findLibPath (b : Build) (cfg : BuildConfig) : String :=
  String.intercalate ":"
    (((collectTransitiveDependencies b).map
        (fun dep => getFinalInstallPath cfg dep ["lib"])) ++
      [getInstallPath cfg b ["lib"]])

/-- `renderFindlibConf` of `simple-builder.js`. -/
def renderFindlibConf (b : Build) (cfg : BuildConfig) : String :=
  "path = \"" ++ findLibPath b cfg ++ "\"\n" ++
  "destdir = \"" ++ getInstallPath cfg b ["lib"] ++ "\"\n" ++
  "ldconf = \"ignore\"\n" ++
  "ocamlc = \"ocamlc.opt\"\n" ++
  "ocamldep = \"ocamldep.opt\"\n" ++
  "ocamldoc = \"ocamldoc.opt\"\n" ++
  "ocamllex = \"ocamllex.opt\"\n" ++
  "ocamlopt = \"ocamlopt.opt\""

/-- Modelled from the words of the specification, for comparison only:
the findlib `path` with dependencies enumerated in DFS post-order
(deepest first, deduplicated by id), that is the post-order visitation
without its final element, which is the build itself. -/
def findLibPathSpecOrder (b : Build) (cfg : BuildConfig) : String :=
  String.intercalate ":"
    ((((dfsVisit b).dropLast).map
        (fun dep => getFinalInstallPath cfg dep ["lib"])) ++
      [getInstallPath cfg b ["lib"]])

/-- A config over concrete store and sandbox roots, used in concrete
instantiations. -/
def exCfg : BuildConfig := { storePath := "/store", sandboxPath := "/sandbox" }

/-- C3 counterexample: on the diamond graph the findlib path written by
the code enumerates dependencies in BFS order, not DFS post-order, so
the two renderings differ. -/
theorem c3_counterexample :
    findLibPath exR exCfg ≠ findLibPathSpecOrder exR exCfg := by
  have h1 : collectTransitiveDependencies exR = [exA, exB, exL] := by
    rw [collect_eq_tail]
    simp [bfsVisit, bfsAux, exR, exA, exB, exL, Build.id, Build.dependencies]
  have h2 : dfsVisit exR = [exL, exA, exB, exR] := by
    simp [dfsVisit, dfsAux, dfsAuxList, exR, exA, exB, exL, Build.id,
      Build.dependencies]
  rw [findLibPath, findLibPathSpecOrder, h1, h2]
  decide

/-- C3 amended: the findlib path enumerates the transitive dependencies
of the build in BFS order from the build (the BFS visitation without the
build itself, deduplicated by id), each contributing its final install
lib path, with the install staging lib of the build appended last. -/
theorem c3_findlib_path_order (b : Build) (cfg : BuildConfig) :
    findLibPath b cfg =
      String.intercalate ":"
        ((((bfsVisit b).tail).map
            (fun dep => getFinalInstallPath cfg dep ["lib"])) ++
          [getInstallPath cfg b ["lib"]]) := by
  rw [findLibPath, collect_eq_tail]

/-- A named environment variable with an optional value, as in
`environment.js`. -/
structure EnvironmentVar where
  name : String
  value : Option String
deriving DecidableEq

/-- A group of environment variables; `renderEnv` reads the `envVars`
field of each group. -/
structure EnvironmentGroup where
  envVars : List EnvironmentVar
deriving DecidableEq

/-- `flattenArray` of `util.js`. -/
def flattenArray {α : Type} (arrayOfArrays : List (List α)) : List α :=
  arrayOfArrays.flatten

/-- `renderEnv` of `makefile-builder.js`: flatten the groups, drop
variables with a null value, render one export per variable, join with
newlines. -/
def renderEnv (groups : List EnvironmentGroup) : String :=
  String.intercalate "\n"
    (((flattenArray (groups.map (fun g => g.envVars))).filter
        (fun v => v.value.isSome)).map
      (fun v => "export " ++ v.name ++ "=\"" ++ v.value.getD "" ++ "\";"))

/-- One export line per variable whose value is non-null, in composition
order with the groups flattened in order; null-valued variables are
omitted entirely. -/
def renderEnvLines (groups : List EnvironmentGroup) : List String :=
  groups.flatMap (fun g =>
    g.envVars.filterMap (fun v =>
      v.value.map (fun val => "export " ++ v.name ++ "=\"" ++ val ++ "\";")))

theorem filter_map_render (l : List EnvironmentVar) :
    (l.filter (fun v => v.value.isSome)).map
        (fun v => "export " ++ v.name ++ "=\"" ++ v.value.getD "" ++ "\";") =
      l.filterMap (fun v =>
        v.value.map (fun val => "export " ++ v.name ++ "=\"" ++ val ++ "\";")) := by
  induction l with
  | nil => rfl
  | cons v l ih =>
    cases hv : v.value with
    | none => simp [List.filter_cons, List.filterMap_cons, hv, ih]
    | some val => simp [List.filter_cons, List.filterMap_cons, hv, ih]

theorem flatten_filter_map (groups : List EnvironmentGroup) :
    ((flattenArray (groups.map (fun g => g.envVars))).filter
        (fun v => v.value.isSome)).map
      (fun v => "export " ++ v.name ++ "=\"" ++ v.value.getD "" ++ "\";") =
    renderEnvLines groups := by
  induction groups with
  | nil => rfl
  | cons g gs ih =>
    simp only [flattenArray, List.map_cons, List.flatten_cons,
      renderEnvLines, List.flatMap_cons, List.filter_append, List.map_append]
    rw [filter_map_render]
    simp only [flattenArray, renderEnvLines] at ih
    rw [ih]

/-- C8: the rendered environment text is exactly the newline join of one
export line of the form export NAME="VALUE"; per variable whose value is
non-null, in composition order with the groups flattened in order, and
variables with a null value are omitted entirely. -/
theorem c8_render_env (groups : List EnvironmentGroup) :
    renderEnv groups = String.intercalate "\n" (renderEnvLines groups) := by
  rw [renderEnv, flatten_filter_map]
/-- Pass lower-casing each character, as the first step of
`normalizePackageName` in `util.js`. -/
def lowerPass (l : List Char) : List Char := l.map Char.toLower

/-- Pass dropping every at sign, the second step. -/
def stripAtPass (l : List Char) : List Char := l.filter (fun c => c ≠ '@')

/-- Pass appending two underscores to every maximal run of underscores,
the third step: every underscore of a run is emitted unchanged, and the
last underscore of a run emits itself plus the two extra underscores,
detected with one character of lookahead. -/
def underscorePass : List Char → List Char
  | [] => []
  | [c] => if c = '_' then ['_', '_', '_'] else [c]
  | c :: c2 :: rest =>
    if c = '_' then
      if c2 = '_' then '_' :: underscorePass (c2 :: rest)
      else '_' :: '_' :: '_' :: underscorePass (c2 :: rest)
    else c :: underscorePass (c2 :: rest)

/-- Pass replacing every slash with `__slash__`, the fourth step. -/
def slashPass (l : List Char) : List Char :=
  l.flatMap (fun c => if c = '/' then "__slash__".toList else [c])

/-- Pass replacing every dot with `__dot__`, the fifth step. -/
def dotPass (l : List Char) : List Char :=
  l.flatMap (fun c => if c = '.' then "__dot__".toList else [c])

/-- Pass replacing every dash with a single underscore, the last step. -/
def dashPass (l : List Char) : List Char :=
  l.map (fun c => if c = '-' then '_' else c)

/-- `normalizePackageName` of `util.js`: the six passes in source
order. -/
def normalizePackageName (name : String) : String :=
  String.mk (dashPass (dotPass (slashPass (underscorePass
    (stripAtPass (lowerPass name.toList))))))

/-- C4 counterexample: a single underscore becomes three underscores,
not two, so the claimed doubling rule is wrong; and stripping the at
sign makes the function non-injective on the claimed alphabet, since a
name with a trailing at sign collides with the same name without it. A
dash-encoded dot spelling also collides with a literal dot. -/
theorem c4_counterexample :
    normalizePackageName "_" ≠ "__" ∧
    normalizePackageName "a@" = normalizePackageName "a" ∧ "a@" ≠ "a" ∧
    normalizePackageName "--dot--" = normalizePackageName "." ∧
    "--dot--" ≠ "." := by
  refine ⟨by decide, by decide, by decide, by decide, by decide⟩

/-- The restricted alphabet on which the amended injectivity claim is
proved: lower-case letters, digits and the dash. -/
def safeChars : List Char := "abcdefghijklmnopqrstuvwxyz0123456789-".toList

/-- The character map that `normalizePackageName` reduces to on the
restricted alphabet. -/
def dashChar (c : Char) : Char := if c = '-' then '_' else c

theorem lowerPass_id : ∀ l : List Char, (∀ c ∈ l, c ∈ safeChars) →
    lowerPass l = l := by
  have hlow : ∀ c ∈ safeChars, Char.toLower c = c := by decide
  intro l
  induction l with
  | nil => intro _; rfl
  | cons c t ih =>
    intro h
    simp only [lowerPass, List.map_cons]
    rw [hlow c (h c (List.mem_cons_self _ _))]
    have := ih (fun x hx => h x (List.mem_cons_of_mem _ hx))
    simp only [lowerPass] at this
    rw [this]

theorem stripAtPass_id : ∀ l : List Char, (∀ c ∈ l, c ≠ '@') →
    stripAtPass l = l := by
  intro l h
  unfold stripAtPass
  rw [List.filter_eq_self]
  intro c hc
  simpa using h c hc

theorem underscorePass_id : ∀ l : List Char, (∀ c ∈ l, c ≠ '_') →
    underscorePass l = l := by
  intro l
  induction l with
  | nil => intro _; rfl
  | cons c t ih =>
    intro h
    have hc : c ≠ '_' := h c (List.mem_cons_self _ _)
    have ht : ∀ x ∈ t, x ≠ '_' := fun x hx => h x (List.mem_cons_of_mem _ hx)
    cases t with
    | nil => rw [underscorePass]; simp [hc]
    | cons c2 r =>
      rw [underscorePass]
      simp only [if_neg hc]
      rw [ih ht]

theorem slashPass_id : ∀ l : List Char, (∀ c ∈ l, c ≠ '/') →
    slashPass l = l := by
  intro l
  induction l with
  | nil => intro _; rfl
  | cons c t ih =>
    intro h
    simp only [slashPass, List.flatMap_cons]
    rw [if_neg (h c (List.mem_cons_self _ _))]
    have := ih (fun x hx => h x (List.mem_cons_of_mem _ hx))
    simp only [slashPass] at this
    rw [this]
    rfl

theorem dotPass_id : ∀ l : List Char, (∀ c ∈ l, c ≠ '.') →
    dotPass l = l := by
  intro l
  induction l with
  | nil => intro _; rfl
  | cons c t ih =>
    intro h
    simp only [dotPass, List.flatMap_cons]
    rw [if_neg (h c (List.mem_cons_self _ _))]
    have := ih (fun x hx => h x (List.mem_cons_of_mem _ hx))
    simp only [dotPass] at this
    rw [this]
    rfl

theorem normalize_safe_eq_map : ∀ s : String,
    (∀ c ∈ s.toList, c ∈ safeChars) →
    normalizePackageName s = String.mk (s.toList.map dashChar) := by
  intro s h
  have h1 : ∀ c ∈ s.toList, c ≠ '@' := by
    have hs : ∀ c ∈ safeChars, c ≠ '@' := by decide
    exact fun c hc => hs c (h c hc)
  have h2 : ∀ c ∈ s.toList, c ≠ '_' := by
    have hs : ∀ c ∈ safeChars, c ≠ '_' := by decide
    exact fun c hc => hs c (h c hc)
  have h3 : ∀ c ∈ s.toList, c ≠ '/' := by
    have hs : ∀ c ∈ safeChars, c ≠ '/' := by decide
    exact fun c hc => hs c (h c hc)
  have h4 : ∀ c ∈ s.toList, c ≠ '.' := by
    have hs : ∀ c ∈ safeChars, c ≠ '.' := by decide
    exact fun c hc => hs c (h c hc)
  unfold normalizePackageName
  rw [lowerPass_id s.toList h, stripAtPass_id s.toList h1,
    underscorePass_id s.toList h2, slashPass_id s.toList h3,
    dotPass_id s.toList h4]
  rfl

theorem map_dashChar_inj :
    ∀ l1 l2 : List Char, (∀ c ∈ l1, c ∈ safeChars) →
      (∀ c ∈ l2, c ∈ safeChars) →
      l1.map dashChar = l2.map dashChar → l1 = l2 := by
  have hinj : ∀ a ∈ safeChars, ∀ b ∈ safeChars,
      dashChar a = dashChar b → a = b := by decide
  intro l1
  induction l1 with
  | nil =>
    intro l2 _ _ heq
    cases l2 with
    | nil => rfl
    | cons b t => simp at heq
  | cons a t1 ih =>
    intro l2 h1 h2 heq
    cases l2 with
    | nil => simp at heq
    | cons b t2 =>
      simp only [List.map_cons, List.cons.injEq] at heq
      have ha := h1 a (List.mem_cons_self _ _)
      have hb := h2 b (List.mem_cons_self _ _)
      have hab : a = b := hinj a ha b hb heq.1
      subst hab
      have ht := ih t2 (fun c hc => h1 c (List.mem_cons_of_mem _ hc))
        (fun c hc => h2 c (List.mem_cons_of_mem _ hc)) heq.2
      rw [ht]

/-- C4 amended: the transformation lower-cases, strips every at sign,
appends two underscores to every maximal run of underscores (so one
underscore becomes three, two become four), replaces slash by
`__slash__`, dot by `__dot__` and dash by a single underscore; it is not
injective on the full claimed alphabet, but it is injective for names
drawn from lower-case letters, digits and dash. -/
theorem c4_normalize_inj (x y : String)
    (hx : ∀ c ∈ x.toList, c ∈ safeChars)
    (hy : ∀ c ∈ y.toList, c ∈ safeChars)
    (heq : normalizePackageName x = normalizePackageName y) : x = y := by
  rw [normalize_safe_eq_map x hx, normalize_safe_eq_map y hy] at heq
  have hdata : x.toList.map dashChar = y.toList.map dashChar := by
    have hc := congrArg String.toList heq
    simpa using hc
  have hl : x.toList = y.toList :=
    map_dashChar_inj x.toList y.toList hx hy hdata
  have hxy := congrArg String.mk hl
  simpa using hxy

/-- Witness for C4 amended: the injectivity theorem applies at a
concrete safe name. -/
theorem c4_normalize_inj_witness :
    (∀ c ∈ ("a-1" : String).toList, c ∈ safeChars) ∧
    normalizePackageName "a-1" = normalizePackageName "a-1" ∧
    ("a-1" : String) = "a-1" :=
  ⟨by decide, rfl, c4_normalize_inj "a-1" "a-1" (by decide) (by decide) rfl⟩

/-- `content.indexOf(origPath)` of the rewrite step in `performBuild`:
index of the first occurrence of the pattern, none when absent; the
empty pattern is found at index zero. -/
def findOcc : List Char → List Char → Option Nat
  | [], pat => if pat.isPrefixOf [] then some 0 else none
  | c :: rest, pat =>
    if pat.isPrefixOf (c :: rest) then some 0
    else (findOcc rest pat).map (· + 1)

/-- `content.write(destPath, offset)` on a Node buffer: overwrite bytes
starting at the offset with the destination bytes, truncated at the end
of the buffer; the buffer length never changes. -/
def bufferWrite (content dest : List Char) (offset : Nat) : List Char :=
  content.take offset ++ dest.take (content.length - offset) ++
    content.drop (offset + dest.length)

/-- The per-file content transformation of the rewrite step in
`performBuild`: find the first occurrence of the original install path
and overwrite it in place with the final install path; files without the
needle are left untouched. -/
def rewriteContent (origPath destPath content : List Char) : List Char :=
  match findOcc content origPath with
  | none => content
  | some offset => bufferWrite content destPath offset

/-- A regular file as mode plus content; `fs.writeFile` on an existing
path replaces the content and leaves the mode. -/
structure RegFile where
  mode : Nat
  content : List Char

/-- The rewrite step applied to one regular file. -/
def rewriteFile (origPath destPath : List Char) (f : RegFile) : RegFile :=
  { mode := f.mode, content := rewriteContent origPath destPath f.content }

theorem findOcc_spec : ∀ (content pat : List Char) (k : Nat),
    findOcc content pat = some k →
    pat.isPrefixOf (content.drop k) = true ∧
    (∀ j < k, pat.isPrefixOf (content.drop j) = false) ∧
    k ≤ content.length := by
  intro content
  induction content with
  | nil =>
    intro pat k h
    rw [findOcc] at h
    split at h
    · next hp =>
      injection h with h
      subst h
      exact ⟨hp, fun j hj => absurd hj (Nat.not_lt_zero j), Nat.le_refl 0⟩
    · exact absurd h (by simp)
  | cons c rest ih =>
    intro pat k h
    rw [findOcc] at h
    split at h
    · next hp =>
      injection h with h
      subst h
      exact ⟨hp, fun j hj => absurd hj (Nat.not_lt_zero j), Nat.zero_le _⟩
    · next hp =>
      simp only [Option.map_eq_some'] at h
      obtain ⟨k0, hk0, rfl⟩ := h
      obtain ⟨h1, h2, h3⟩ := ih pat k0 hk0
      refine ⟨h1, ?_, by simpa using Nat.succ_le_succ h3⟩
      intro j hj
      cases j with
      | zero =>
        simp only [List.drop_zero]
        exact Bool.not_eq_true _ ▸ (by simpa using hp)
      | succ j0 =>
        simp only [List.drop_succ_cons]
        exact h2 j0 (Nat.lt_of_succ_lt_succ hj)

/-- C1 amended: when the rewritten install path occurs in the content of
a regular file, the rewrite step overwrites exactly the first occurrence
in place with the equal-length final install path: the result is the
bytes before the occurrence, then the replacement, then the bytes after
the occurrence, the offset really carries the first occurrence, and file
modes are preserved. Later occurrences of the needle may remain. -/
theorem c1_rewrite_first_occurrence (orig dest content : List Char) (k : Nat)
    (hlen : dest.length = orig.length)
    (hfind : findOcc content orig = some k) :
    rewriteContent orig dest content =
      content.take k ++ dest ++ content.drop (k + orig.length) ∧
    orig.isPrefixOf (content.drop k) = true ∧
    (∀ j < k, orig.isPrefixOf (content.drop j) = false) ∧
    (∀ m, (rewriteFile orig dest ⟨m, content⟩).mode = m) := by
  obtain ⟨h1, h2, h3⟩ := findOcc_spec content orig k hfind
  refine ⟨?_, h1, h2, fun m => rfl⟩
  rw [rewriteContent, hfind]
  simp only []
  unfold bufferWrite
  have hpre := List.isPrefixOf_iff_prefix.mp h1
  have hplen : orig.length ≤ content.length - k := by
    have hle := hpre.length_le
    simpa [List.length_drop] using hle
  have hdlen : dest.length ≤ content.length - k := hlen ▸ hplen
  rw [List.take_of_length_le hdlen, hlen]

/-- Witness for C1 amended: the theorem applies to a concrete file whose
content is a prefix, the needle, and a suffix. -/
theorem c1_rewrite_first_occurrence_witness :
    ((("cd" : String).toList.length = ("ab" : String).toList.length) ∧
      findOcc ("xabab".toList) ("ab".toList) = some 1) ∧
    (rewriteContent ("ab".toList) ("cd".toList) ("xabab".toList) =
      ("xabab".toList).take 1 ++ ("cd".toList) ++
        ("xabab".toList).drop (1 + ("ab".toList).length) ∧
    ("ab".toList).isPrefixOf (("xabab".toList).drop 1) = true ∧
    (∀ j < 1, ("ab".toList).isPrefixOf (("xabab".toList).drop j) = false) ∧
    (∀ m, (rewriteFile ("ab".toList) ("cd".toList)
      ⟨m, "xabab".toList⟩).mode = m)) :=
  ⟨⟨by decide, by decide⟩,
    c1_rewrite_first_occurrence ("ab".toList) ("cd".toList) ("xabab".toList) 1
      (by decide) (by decide)⟩

/-- C1 counterexample: a regular file whose content holds the staging
install prefix twice still contains it after the rewrite step, because
only the first occurrence is overwritten; so the claim that no file
under the install tree contains the staging prefix after the rewrite is
false. The paths are the install and final install paths of a concrete
persisted build. -/
theorem c1_counterexample :
    (findOcc
      (rewriteContent ((getInstallPath exCfg exL []).toList)
        ((getFinalInstallPath exCfg exL []).toList)
        ((getInstallPath exCfg exL []).toList ++
          (getInstallPath exCfg exL []).toList))
      ((getInstallPath exCfg exL []).toList)).isSome = true := by
  decide

/-- File-system and process operations issued by `performBuild`; the
payloads carry the paths and command strings that the code passes. -/
inductive FsOp where
  | rmtree (path : String)
  | mkdirp (path : String)
  | rsyncFromTo (src : String) (dst : String)
  | writeFile (path : String)
  | execCommand (cmd : String)
  | walk (path : String)
  | statFile (path : String)
  | readFile (path : String)
  | rename (src : String) (dst : String)
deriving DecidableEq

/-- `INSTALL_DIRS` of `simple-builder.js`. -/
def INSTALL_DIRS : List String :=
  ["lib", "bin", "sbin", "man", "doc", "share", "stublibs", "etc"]

/-- `BUILD_DIRS` of `simple-builder.js`. -/
def BUILD_DIRS : List String := ["_esy"]

/-- One entry of the `fs.walk` result inside the rewrite step. -/
structure WalkedFile where
  absolute : String
  isFile : Bool
  content : List Char
deriving DecidableEq

/-- The operations of one task of the rewrite chain: stat the entry,
read it when it is a regular file, and write it back when the original
install path occurs in its content. -/
def rewriteTaskOps (origPath : List Char) (f : WalkedFile) : List FsOp :=
  [.statFile f.absolute] ++
    (if f.isFile then
      [.readFile f.absolute] ++
        (match findOcc f.content origPath with
         | some _ => [.writeFile f.absolute]
         | none => [])
    else [])

/-- The effect sequence of `performBuild` in `simple-builder.js`. The
first component is the sequence of operations the promise chain awaits,
in await order; the second is the operations issued on the separate
`rewriteInProgress` chain, which `performBuild` constructs but never
awaits before issuing the final rename. The walked files are a
parameter, standing for the state of the staging install tree after the
build commands ran. -/
def performBuildOps (cfg : BuildConfig) (b : Build)
    (finalInstallExists : Bool) (files : List WalkedFile) :
    List FsOp × List FsOp :=
  if b.shouldBePersisted && finalInstallExists then ([], [])
  else
    let awaited : List FsOp :=
      [.rmtree (getFinalInstallPath cfg b []),
       .rmtree (getInstallPath cfg b []),
       .rmtree (getBuildPath cfg b [])] ++
      BUILD_DIRS.map (fun p => .mkdirp (getBuildPath cfg b [p])) ++
      INSTALL_DIRS.map (fun p => .mkdirp (getInstallPath cfg b [p])) ++
      (if b.mutatesSourcePath then
        [.rsyncFromTo (pathJoin [cfg.sandboxPath, b.sourcePath])
          (getBuildPath cfg b [])]
      else []) ++
      [.writeFile (pathJoin [getBuildPath cfg b [], "_esy", "env"]),
       .writeFile (pathJoin [getBuildPath cfg b [], "_esy", "findlib.conf"])] ++
      (match b.command with
       | some cmds =>
          cmds.map (fun c => .execCommand c) ++ [.walk (getInstallPath cfg b [])]
       | none => []) ++
      [.rename (getInstallPath cfg b []) (getFinalInstallPath cfg b [])]
    let detached : List FsOp :=
      match b.command with
      | some _ =>
          files.flatMap (rewriteTaskOps (getInstallPath cfg b []).toList)
      | none => []
    (awaited, detached)

/-- `initStore` of `simple-builder.js`. -/
def initStoreOps (storePath : String) : List FsOp :=
  ["_build", "_install", "_insttmp"].map
    (fun p => FsOp.mkdirp (pathJoin [storePath, p]))

/-- The effect sequence of the in-process `build` entry point: create
both store skeletons, then run `performBuild` over the post-order DFS
visitation, each build contributing its awaited chain and its detached
rewrite chain. -/
def buildOps (cfg : BuildConfig) (root : Build)
    (finalInstallExists : Build → Bool) (files : Build → List WalkedFile) :
    List FsOp :=
  initStoreOps cfg.storePath ++
    initStoreOps (pathJoin [cfg.sandboxPath, "_esy", "store"]) ++
    (dfsVisit root).flatMap (fun b =>
      (performBuildOps cfg b (finalInstallExists b) (files b)).1 ++
        (performBuildOps cfg b (finalInstallExists b) (files b)).2)

theorem getLast?_append_some {α : Type} {t : List α} {x : α}
    (h : t.getLast? = some x) (l : List α) :
    (l ++ t).getLast? = some x := by
  have hne : t ≠ [] := by intro he; subst he; simp at h
  rw [List.getLast?_append_of_ne_nil l hne, h]

/-- C5: when a build is persisted and its final install directory
already exists, performBuild returns at the cache check: it issues no
operation at all, neither awaited nor detached; consequently a run of
the whole builder in which every build of the visitation is persisted
and already installed issues nothing beyond the store-skeleton
creations, and in particular executes no command. -/
theorem c5_cache_hit (cfg : BuildConfig) (b : Build)
    (files : List WalkedFile) (hp : b.shouldBePersisted = true) :
    performBuildOps cfg b true files = ([], []) ∧
    (∀ root inst fls,
      (∀ u ∈ dfsVisit root, u.shouldBePersisted = true ∧ inst u = true) →
      buildOps cfg root inst fls =
        initStoreOps cfg.storePath ++
          initStoreOps (pathJoin [cfg.sandboxPath, "_esy", "store"])) := by
  constructor
  · simp [performBuildOps, hp]
  · intro root inst fls hall
    unfold buildOps
    have hnil : (dfsVisit root).flatMap (fun u =>
        (performBuildOps cfg u (inst u) (fls u)).1 ++
          (performBuildOps cfg u (inst u) (fls u)).2) = [] := by
      rw [List.flatMap_eq_nil_iff]
      intro u hu
      obtain ⟨h1, h2⟩ := hall u hu
      simp [performBuildOps, h1, h2]
    rw [hnil, List.append_nil]

/-- Witness for C5: the cache-check theorem applies to a concrete
persisted build. -/
theorem c5_cache_hit_witness :
    exL.shouldBePersisted = true ∧
    performBuildOps exCfg exL true [] = ([], []) :=
  ⟨by decide, (c5_cache_hit exCfg exL [] (by decide)).1⟩

/-- C2: for a build with a non-null command that passes the cache check,
the awaited chain of performBuild ends with the rename of the staging
install directory onto the final install directory, while every
rewrite write lands only on the detached chain: the only writes the
awaited chain ever contains are the environment file and the findlib
configuration. The rename is therefore not sequenced after the rewrite
writes, which is the missing-await defect at the commit point. -/
theorem c2_rename_before_rewrites (cfg : BuildConfig) (b : Build)
    (inst : Bool) (files : List WalkedFile) (cmds : List String)
    (hc : b.command = some cmds)
    (hmiss : ¬(b.shouldBePersisted = true ∧ inst = true)) :
    (performBuildOps cfg b inst files).1.getLast? =
      some (.rename (getInstallPath cfg b []) (getFinalInstallPath cfg b [])) ∧
    (∀ f ∈ files, f.isFile = true →
      (findOcc f.content (getInstallPath cfg b []).toList).isSome = true →
      FsOp.writeFile f.absolute ∈ (performBuildOps cfg b inst files).2) ∧
    (∀ p, FsOp.writeFile p ∈ (performBuildOps cfg b inst files).1 →
      p = pathJoin [getBuildPath cfg b [], "_esy", "env"] ∨
      p = pathJoin [getBuildPath cfg b [], "_esy", "findlib.conf"]) := by
  have hcond : (b.shouldBePersisted && inst) = false := by
    cases hb : b.shouldBePersisted <;> cases hi : inst <;> simp_all
  refine ⟨?_, ?_, ?_⟩
  · rw [performBuildOps]
    simp only [hcond, Bool.false_eq_true, if_false]
    repeat apply getLast?_append_some
    rfl
  · intro f hf hreg hocc
    rw [performBuildOps]
    simp only [hcond, Bool.false_eq_true, if_false, hc]
    rw [List.mem_flatMap]
    refine ⟨f, hf, ?_⟩
    unfold rewriteTaskOps
    rcases hsome : findOcc f.content (getInstallPath cfg b []).toList with
      _ | k
    · rw [hsome] at hocc; simp at hocc
    · simp [hreg]
  · intro p hp
    cases hm : b.mutatesSourcePath <;>
      simp [performBuildOps, hcond, hc, hm, BUILD_DIRS, INSTALL_DIRS] at hp <;>
      tauto

/-- A build with a command, used to instantiate the commit-point
theorem. -/
def exCmd : Build := .mk "idM" "M" "1" (some ["make"]) "m" false true []

/-- Witness for C2: the commit-point theorem applies to a concrete
persisted build with one command whose final install is absent. -/
theorem c2_rename_before_rewrites_witness :
    (exCmd.command = some ["make"] ∧
      ¬(exCmd.shouldBePersisted = true ∧ false = true)) ∧
    ((performBuildOps exCfg exCmd false []).1.getLast? =
      some (.rename (getInstallPath exCfg exCmd [])
        (getFinalInstallPath exCfg exCmd [])) ∧
    (∀ f ∈ ([] : List WalkedFile), f.isFile = true →
      (findOcc f.content (getInstallPath exCfg exCmd []).toList).isSome = true →
      FsOp.writeFile f.absolute ∈ (performBuildOps exCfg exCmd false []).2) ∧
    (∀ p, FsOp.writeFile p ∈ (performBuildOps exCfg exCmd false []).1 →
      p = pathJoin [getBuildPath exCfg exCmd [], "_esy", "env"] ∨
      p = pathJoin [getBuildPath exCfg exCmd [], "_esy", "findlib.conf"])) :=
  ⟨⟨by decide, by decide⟩,
    c2_rename_before_rewrites exCfg exCmd false [] ["make"]
      (by decide) (by decide)⟩

/-- C9 amended: for a build with a null command that passes the cache
check, performBuild executes no command and performs no rewrite walk,
the detached rewrite chain is empty, yet the awaited chain still creates
the eight install skeleton directories and ends with the rename of the
staging install onto the final install. -/
theorem c9_null_command (cfg : BuildConfig) (b : Build) (inst : Bool)
    (files : List WalkedFile) (hc : b.command = none)
    (hmiss : ¬(b.shouldBePersisted = true ∧ inst = true)) :
    (∀ c, FsOp.execCommand c ∉ (performBuildOps cfg b inst files).1) ∧
    (∀ p, FsOp.walk p ∉ (performBuildOps cfg b inst files).1) ∧
    (performBuildOps cfg b inst files).2 = [] ∧
    (∀ d ∈ INSTALL_DIRS, FsOp.mkdirp (getInstallPath cfg b [d]) ∈
      (performBuildOps cfg b inst files).1) ∧
    (performBuildOps cfg b inst files).1.getLast? =
      some (.rename (getInstallPath cfg b []) (getFinalInstallPath cfg b [])) := by
  have hcond : (b.shouldBePersisted && inst) = false := by
    cases hb : b.shouldBePersisted <;> cases hi : inst <;> simp_all
  refine ⟨?_, ?_, ?_, ?_, ?_⟩
  · intro c hmem
    cases hm : b.mutatesSourcePath <;>
      simp [performBuildOps, hcond, hc, hm, BUILD_DIRS, INSTALL_DIRS] at hmem
  · intro p hmem
    cases hm : b.mutatesSourcePath <;>
      simp [performBuildOps, hcond, hc, hm, BUILD_DIRS, INSTALL_DIRS] at hmem
  · simp [performBuildOps, hcond, hc]
  · intro d hd
    simp only [performBuildOps, hcond, Bool.false_eq_true, if_false, hc,
      List.append_nil]
    have hmem : FsOp.mkdirp (getInstallPath cfg b [d]) ∈
        INSTALL_DIRS.map (fun p => FsOp.mkdirp (getInstallPath cfg b [p])) :=
      List.mem_map_of_mem _ hd
    exact List.mem_append_left _ (List.mem_append_left _
      (List.mem_append_left _ (List.mem_append_right _ hmem)))
  · rw [performBuildOps]
    simp only [hcond, Bool.false_eq_true, if_false]
    repeat apply getLast?_append_some
    rfl

/-- C9 counterexample: a cached build with a null command returns at the
cache check, so it creates no install skeleton and performs no rename at
all; the claim that every null-command build still creates the skeleton
and renames is therefore false for cached builds. -/
theorem c9_counterexample :
    exL.command = none ∧ exL.shouldBePersisted = true ∧
    performBuildOps exCfg exL true [] = ([], []) ∧
    FsOp.rename (getInstallPath exCfg exL []) (getFinalInstallPath exCfg exL [])
      ∉ (performBuildOps exCfg exL true []).1 ∧
    FsOp.mkdirp (getInstallPath exCfg exL ["lib"])
      ∉ (performBuildOps exCfg exL true []).1 := by
  refine ⟨by decide, by decide, by decide, by decide, by decide⟩

/-- A non-persisted build with a null command, used as the witness
input of the amended C9 theorem. -/
def exDev : Build := .mk "idD" "D" "1" none "d" false false []

/-- Witness for C9 amended: the theorem applies to a concrete
non-persisted build with a null command. -/
theorem c9_null_command_witness :
    (exDev.command = none ∧
      ¬(exDev.shouldBePersisted = true ∧ false = true)) ∧
    ((∀ c, FsOp.execCommand c ∉ (performBuildOps exCfg exDev false []).1) ∧
    (∀ p, FsOp.walk p ∉ (performBuildOps exCfg exDev false []).1) ∧
    (performBuildOps exCfg exDev false []).2 = [] ∧
    (∀ d ∈ INSTALL_DIRS, FsOp.mkdirp (getInstallPath exCfg exDev [d]) ∈
      (performBuildOps exCfg exDev false []).1) ∧
    (performBuildOps exCfg exDev false []).1.getLast? =
      some (.rename (getInstallPath exCfg exDev [])
        (getFinalInstallPath exCfg exDev []))) :=
  ⟨⟨by decide, by decide⟩,
    c9_null_command exCfg exDev false [] (by decide) (by decide)⟩

/-- `getOldHash.js` over an explicit file-system map from file names to
optional contents: when the hash file exists the script throws with the
message Hash file not available; only when it does not exist does the
script try to read it, and that read fails because the file is absent. -/
def getOldHash (fsMap : String → Option String) (folderName : String) :
    Except String String :=
  let fileName := pathJoin [folderName, ".esy_hash"]
  if (fsMap fileName).isSome then Except.error "Hash file not available"
  else
    match fsMap fileName with
    | some fileContent => Except.ok fileContent
    | none => Except.error "ENOENT: no such file"

/-- C10: getOldHash throws with the message Hash file not available
exactly when the hash file exists in the folder, and it never returns a
successfully read hash: for every file-system state it produces an
error. -/
theorem c10_get_old_hash (fsMap : String → Option String) (folder : String) :
    (getOldHash fsMap folder = Except.error "Hash file not available" ↔
      (fsMap (pathJoin [folder, ".esy_hash"])).isSome = true) ∧
    ∀ s, getOldHash fsMap folder ≠ Except.ok s := by
  rcases hf : fsMap (pathJoin [folder, ".esy_hash"]) with _ | content
  · constructor
    · rw [getOldHash]
      simp [hf]
    · intro s
      rw [getOldHash]
      simp [hf]
  · constructor
    · rw [getOldHash]
      simp [hf]
    · intro s
      rw [getOldHash]
      simp [hf]

end Esy
